import Mathlib

/-!
Verification development for the fairscale repository
(fairscale/experimental/nn/sparse_softmax.py and the SSD offload tensor
handle exercised by tests/nn/data_parallel/test_fsdp_offload.py).

Matrices are shallowly embedded as lists of rows over the rationals: exact
arithmetic stands in for floating point, as the properties under study are
stated in exact arithmetic.  The exponential inside every softmax is kept
abstract as a function E between rationals, constrained only to be strictly
positive where a theorem needs it: in exact arithmetic the numerically
stabilizing subtraction of the row maximum cancels for the true exponential,
so softmax is modelled as v mapped to E v divided by the sum of E over the
row, and each theorem quantifies over all positive E (the true exponential
being one instance).

torch.topk is modelled as selecting, per row, the k entries that are
largest by value, breaking ties towards the smaller column index (a
deterministic resolution of the tie order torch leaves unspecified), and it
fails - as torch does - when k exceeds the width of the row.  A sparse COO
tensor is modelled as its list of (column, value) entries per row;
accumulation (coalescing) sums the values of entries sharing a column,
which is exactly what torch.sparse addition followed by sparse softmax does.
-/

/-- Dot product of two equal-length vectors, the elementwise product summed
(torch matmul restricted to one row and one column). -/
def dot (u v : List ℚ) : ℚ := (List.zipWith (fun a b => a * b) u v).sum

/-- Linear projection of one activation row through a weight matrix given as
the list of its output rows: component j is the dot product with weight row j
(nn.Linear with bias=False applied to a single token). -/
def projRow (w : List (List ℚ)) (a : List ℚ) : List ℚ := w.map (dot a)

/-- torch.split applied along dimension 0: cut a list into consecutive chunks
of size s, the last chunk possibly shorter.  The s = 0 case is never reached
by the kernels (torch.split raises there); it is given a harmless value. -/
def listSplit : ℕ → List α → List (List α)
  | _, [] => []
  | 0, a :: l => [a :: l]
  | s + 1, a :: l => ((a :: l).take (s + 1)) :: listSplit (s + 1) (l.drop s)
termination_by _ l => l.length
decreasing_by simp only [List.length_cons, List.length_drop]; omega

/-- Priority order used to model torch.topk: an entry beats another when its
value is larger, or the values tie and its column index is smaller. -/
def betterB (p q : ℕ × ℚ) : Bool := decide (q.2 < p.2) || (decide (p.2 = q.2) && decide (p.1 < q.1))

/-- Number of entries of the list that beat p: the rank of p, zero-based. -/
def rankIn (l : List (ℕ × ℚ)) (p : ℕ × ℚ) : ℕ := l.countP (fun q => betterB q p)

/-- The top-k selection of an indexed row: the entries of rank below k, kept
in their original order.  For a row of pairwise distinct indices this is
exactly the set of the k largest entries under the priority order. -/
def topkP (k : ℕ) (l : List (ℕ × ℚ)) : List (ℕ × ℚ) := l.filter (fun p => decide (rankIn l p < k))

/-- torch.topk on one row of values: fails when k exceeds the width, else
returns the selected (index, value) pairs. -/
def torchTopkRow (k : ℕ) (x : List ℚ) : Option (List (ℕ × ℚ)) :=
  if k ≤ x.length then some (topkP k x.enum) else none

/-- Add a base offset to the index of every entry (translating tile-local
column indices to global vocabulary indices). -/
def shiftIdx (base : ℕ) (l : List (ℕ × ℚ)) : List (ℕ × ℚ) := l.map (fun p => (p.1 + base, p.2))

/-- Per-tile loop of TopKTiledSoftmax.forward for a single token row a:
project through each weight tile, take the per-tile top-k, shift the
tile-local indices by the running base, and concatenate the candidates.
Fails when torch.topk fails on some tile. -/
def tileCandidatesRow (k : ℕ) (a : List ℚ) : ℕ → List (List (List ℚ)) → Option (List (ℕ × ℚ))
  | _, [] => some []
  | base, t :: ts => do
    let c ← torchTopkRow k (projRow t a)
    let rest ← tileCandidatesRow k a (base + t.length) ts
    pure (shiftIdx base c ++ rest)

/-- Second top-k reduction over the concatenated candidates, as
torch.topk(val, k) followed by the gather of the matching indices: fails when
the candidate row is narrower than k. -/
def torchTopkPairs (k : ℕ) (l : List (ℕ × ℚ)) : Option (List (ℕ × ℚ)) :=
  if k ≤ l.length then some (topkP k l) else none

/-- Value of a sparse COO row at column c: the sum of the values of all
entries carrying that column (coalescing semantics of torch sparse
accumulation, which torch.sparse.softmax applies). -/
def sumVal (c : ℕ) (es : List (ℕ × ℚ)) : ℚ := ((es.filter (fun p => decide (p.1 = c))).map Prod.snd).sum

/-- Columns specified by a sparse COO row, without duplicates. -/
def supportCols (es : List (ℕ × ℚ)) : List ℕ := (es.map Prod.fst).dedup

/-- Softmax normalizer of a sparse row: the sum of E over the coalesced
values of its specified columns. -/
def rowNorm (E : ℚ → ℚ) (es : List (ℕ × ℚ)) : ℚ :=
  ((supportCols es).map (fun c => E (sumVal c es))).sum

/-- torch.sparse.softmax along a row followed by to_dense: specified columns
receive E of their coalesced value divided by the row normalizer, and every
unspecified column is exactly zero. -/
def sparseRowSoftmaxDense (E : ℚ → ℚ) (vocab : ℕ) (es : List (ℕ × ℚ)) : List ℚ :=
  (List.range vocab).map (fun c => if c ∈ supportCols es then E (sumVal c es) / rowNorm E es else 0)

/-- Sparse entries accumulated by TopKTiledSoftmax.forward for one token:
the second-pass top-k candidates, followed by the separately recomputed
logit of the ground-truth label (result += result_target appends the label
entry whether or not its column already appears among the top-k). -/
def ttskRowEntries (k : ℕ) (w : List (List ℚ)) (tiles : List (List (List ℚ)))
    (a : List ℚ) (t : ℕ) : Option (List (ℕ × ℚ)) := do
  let cand ← tileCandidatesRow k a 0 tiles
  let sel ← torchTopkPairs k cand
  pure (sel ++ [(t, dot a (w.getD t []))])

/-- Option-valued map: fails when the function fails on some element
(the per-token loop of a kernel whose body may raise). -/
def mapO (f : α → Option β) : List α → Option (List β)
  | [] => some []
  | a :: l =>
    match f a, mapO f l with
    | some b, some bs => some (b :: bs)
    | _, _ => none

/-- TopKTiledSoftmax.forward: split the projection weight into tiles of
out_dim / tile_factor rows (none models the error torch.split raises when
that quotient is zero on a nonempty weight), run the tiled two-pass top-k
per token, append the label entry, and return the dense sparse-softmax
result.  E abstracts the exponential of the softmax. -/
def ttskForward (E : ℚ → ℚ) (w : List (List ℚ)) (k tile_factor : ℕ)
    (input : List (List ℚ)) (target : List ℕ) : Option (List (List ℚ)) :=
  if w.length / tile_factor = 0 then none
  else
    mapO (fun p => (ttskRowEntries k w (listSplit (w.length / tile_factor) w) p.1 p.2).map
      (sparseRowSoftmaxDense E w.length)) (input.zip target)

/-- Dense softmax of one row of logits, E abstracting the exponential:
F.softmax along the last dimension in exact arithmetic. -/
def denseSoftmaxRow (E : ℚ → ℚ) (row : List ℚ) : List ℚ :=
  row.map (fun v => E v / (row.map E).sum)

/-- BaselineSoftmax.forward: full projection followed by a dense softmax per
token; the target argument is accepted and unused. -/
def baselineForward (E : ℚ → ℚ) (w : List (List ℚ)) (input : List (List ℚ))
    (target : List ℕ) : List (List ℚ) :=
  (input.map (projRow w)).map (denseSoftmaxRow E)

/-- InplaceSoftmax.forward: full projection, exponentiate in place, then
divide by the row sum (written exactly as the three source statements). -/
def inplaceForward (E : ℚ → ℚ) (w : List (List ℚ)) (input : List (List ℚ))
    (target : List ℕ) : List (List ℚ) :=
  (input.map (projRow w)).map (fun row =>
    let ex := row.map E
    ex.map (fun e => e / ex.sum))

/-- TiledSoftmax.forward: split the input on the token dimension into
tokens / tile_factor sized chunks (none models the torch.split error when
that quotient is zero on a nonempty input), apply projection and dense
softmax per chunk, and return the list of chunk outputs without
concatenating them. -/
def tiledForward (E : ℚ → ℚ) (w : List (List ℚ)) (tile_factor : ℕ)
    (input : List (List ℚ)) (target : List ℕ) : Option (List (List (List ℚ))) :=
  if input.length / tile_factor = 0 then none
  else some ((listSplit (input.length / tile_factor) input).map
    (fun chunk => (chunk.map (projRow w)).map (denseSoftmaxRow E)))

/-- TopKFaissSoftmax.forward: synchronize, call faiss.knn_gpu on the input,
the stored weight and k, and return the distance component D only.  The knn
routine is external to the repository and is a parameter of the model; the
label argument is never passed to it. -/
def topKFaissForward (knn : List (List ℚ) → List (List ℚ) → ℕ → List (List ℚ) × List (List ℕ))
    (b : List (List ℚ)) (k : ℕ) (input : List (List ℚ)) (target : List ℕ) : List (List ℚ) :=
  (knn input b k).1

/-- Element dtypes admitted by the kernels (the constructor asserts the
weight is float16 or float32). -/
inductive DType
  | float16
  | float32
deriving DecidableEq

/-- Dtype of the result tensor of TopKTiledSoftmax.forward as a function of
the weight dtype: the per-tile projection, top-k and sparse accumulation
stay in the input dtype, then result.float() is applied exactly when the
kernel runs in float16, and sparse softmax with to_dense preserve dtype. -/
def ttskOutputDtype (weightDtype : DType) : DType :=
  let projected := weightDtype
  let afterCast := if projected = DType.float16 then DType.float32 else projected
  afterCast

/-- Dtype of BaselineSoftmax.forward: the projection output is cast by
x.float() exactly when the kernel runs in float16, then F.softmax preserves
dtype (the source asserts the result is float32). -/
def baselineOutputDtype (weightDtype : DType) : DType :=
  if weightDtype = DType.float16 then DType.float32 else weightDtype

/-- Modelled from the spec: byte layout of a backing file region (section 3,
flat contiguous encoding with no header).  Writing data at a byte offset
replaces exactly data.length elements of the file starting there. -/
def writeRegion (file : List α) (off : ℕ) (data : List α) : List α :=
  file.take off ++ data ++ file.drop (off + data.length)

/-- Modelled from the spec: reading a region of len elements at a byte
offset of the backing file. -/
def readRegion (file : List α) (off len : ℕ) : List α := (file.drop off).take len

/-- Modelled from the spec: the location state of an offload tensor handle
(section 3, tagged variant InMemoryCache, OnFile or InSharedBuffer; the
shared-buffer state is not exercised by the claims settled here). -/
inductive Location
  | inMemoryCache
  | onFile
  | inSharedBuffer
deriving DecidableEq

/-- Modelled from the spec: the SSD tensor handle of
fairscale.experimental.nn.ssd_offload (the module itself is not among the
source files; sections 3 and 4.1 describe it).  The tensor value is a flat
list of elements, numel and the file offset binding are tracked, and
exactly one location is authoritative. -/
structure SsdTensorHandle (α : Type) where
  numel : ℕ
  cache : Option (List α)
  fileOff : Option ℕ
  loc : Location
  dirty : Bool

/-- Modelled from the spec: SsdTensorHandle.from_tensor creates a handle in
the InMemoryCache state holding the given tensor value. -/
def fromTensor (t : List α) : SsdTensorHandle α :=
  ⟨t.length, some t, none, Location.inMemoryCache, true⟩

/-- Modelled from the spec: set_file_params binds future persist and
materialize calls to the byte region at the given offset. -/
def setFileParams (h : SsdTensorHandle α) (off : ℕ) : SsdTensorHandle α :=
  { h with fileOff := some off }

/-- Modelled from the spec: to_file / persist_to_file writes the resident
value to the bound file region; with release it transitions to OnFile and
drops the cache, otherwise it stays resident with the dirty flag cleared.
Fails (NoFileBound / NotResident) when no file is bound or no value is
resident. -/
def toFile (h : SsdTensorHandle α) (release : Bool) (file : List α) :
    Option (SsdTensorHandle α × List α) :=
  match h.fileOff, h.cache with
  | some off, some t =>
    some (if release then { h with cache := none, loc := Location.onFile, dirty := false }
          else { h with dirty := false },
          writeRegion file off t)
  | _, _ => none

/-- Modelled from the spec: materialize_from_file reads exactly numel
elements from the bound region into a fresh cache, entering InMemoryCache;
fails (ShapeMismatch) when the file region is shorter than required, and is
the identity when already resident. -/
def materialize (h : SsdTensorHandle α) (file : List α) : Option (SsdTensorHandle α) :=
  match h.loc, h.fileOff with
  | Location.onFile, some off =>
    if off + h.numel ≤ file.length
    then some { h with
                cache := some (readRegion file off h.numel)
                loc := Location.inMemoryCache
                dirty := false }
    else none
  | Location.inMemoryCache, _ => some h
  | _, _ => none

/-- Modelled from the spec: to_tensor returns the tensor value from the
authoritative location, reading the bound file region when the handle is in
the OnFile state. -/
def toTensor (h : SsdTensorHandle α) (file : List α) : Option (List α) :=
  match h.loc, h.cache, h.fileOff with
  | Location.inMemoryCache, some t, _ => some t
  | Location.onFile, _, some off =>
    if off + h.numel ≤ file.length then some (readRegion file off h.numel) else none
  | _, _, _ => none

/-- Modelled from the spec: point_to_file rebinds the handle to the file
region at the given offset and makes the file authoritative, dropping any
cached copy (the test uses it to force the next read to come from disk). -/
def pointToFile (h : SsdTensorHandle α) (off : ℕ) : SsdTensorHandle α :=
  { h with fileOff := some off, loc := Location.onFile, cache := none }

/-- Modelled from the spec: write_in_place overwrites the resident value and
marks the handle dirty; fails (NotResident) in the OnFile state and
(ShapeMismatch) when the new value has the wrong element count. -/
def writeInPlace (h : SsdTensorHandle α) (v : List α) : Option (SsdTensorHandle α) :=
  match h.loc, h.cache with
  | Location.inMemoryCache, some _ =>
    if v.length = h.numel then some { h with cache := some v, dirty := true } else none
  | _, _ => none

/-- Gradient of the loss fun x => (x + 1).sum with respect to x, as autograd
computes it for y1.sum().backward(): the all-ones tensor of the same shape. -/
def gradSumAddOne (x : List ℚ) : List ℚ := x.map (fun _ => 1)

/-- One SGD step without momentum at the given learning rate: each parameter
moves against its gradient by lr times the gradient. -/
def sgdStep (lr : ℚ) (x g : List ℚ) : List ℚ := List.zipWith (fun a b => a - lr * b) x g

/-- Modelled from the spec: the optimizer-step scenario of the test
(sections 4.1 and 8).  The handle wraps the tensor, binds the file region at
the offset, persists with the cache released, materializes, is stepped by
SGD against the loss sum(handle + 1), the updated value is written in place
and persisted (arithmetic never operates on stale file bytes), and the
post-step value is finally read back through the file after point_to_file. -/
def ssdSgdFlow (lr : ℚ) (t file : List ℚ) (off : ℕ) : Option (List ℚ) := do
  let s1 ← toFile (setFileParams (fromTensor t) off) true file
  let h2 ← materialize s1.1 s1.2
  let v ← toTensor h2 s1.2
  let h3 ← writeInPlace h2 (sgdStep lr v (gradSumAddOne v))
  let s2 ← toFile h3 false s1.2
  toTensor (pointToFile s2.1 off) s2.2

/-- Per-tile logit rows paired with their global column indices: tile i
contributes its logits enumerated from the running base offset (the pure
shape of the candidate generation of TopKTiledSoftmax.forward). -/
def enumTiles (base : ℕ) : List (List ℚ) → List (List (ℕ × ℚ))
  | [] => []
  | x :: xs => x.enumFrom base :: enumTiles (base + x.length) xs

/-- Columns of the k best entries of a full row of logits under the
priority order (the vocabulary indices of the k largest logits, ties broken
towards smaller indices). -/
def topkCols (k : ℕ) (row : List ℚ) : List ℕ := (topkP k row.enum).map Prod.fst

/-- Concrete strictly positive stand-in for the softmax exponential, used to
evaluate the kernels on closed inputs. -/
def sqPlusOne (x : ℚ) : ℚ := x * x + 1

/-- Concrete strictly positive stand-in for the softmax exponential that is
constant, used to evaluate the kernels on closed inputs. -/
def oneFun (x : ℚ) : ℚ := 1

theorem betterB_irrefl (p : ℕ × ℚ) : betterB p p = false := by
  simp [betterB]

theorem betterB_trans {p q r : ℕ × ℚ} (h1 : betterB p q = true) (h2 : betterB q r = true) :
    betterB p r = true := by
  simp only [betterB, Bool.or_eq_true, Bool.and_eq_true, decide_eq_true_eq] at h1 h2 ⊢
  rcases h1 with h1 | ⟨h1e, h1i⟩ <;> rcases h2 with h2 | ⟨h2e, h2i⟩
  · exact Or.inl (h2.trans h1)
  · exact Or.inl (h2e ▸ h1)
  · exact Or.inl (h1e ▸ h2)
  · exact Or.inr ⟨h1e.trans h2e, h1i.trans h2i⟩

theorem betterB_total {p q : ℕ × ℚ} (h : p.1 ≠ q.1) :
    betterB p q = true ∨ betterB q p = true := by
  simp only [betterB, Bool.or_eq_true, Bool.and_eq_true, decide_eq_true_eq]
  rcases lt_trichotomy p.2 q.2 with h2 | h2 | h2
  · exact Or.inr (Or.inl h2)
  · rcases Nat.lt_or_ge p.1 q.1 with h1 | h1
    · exact Or.inl (Or.inr ⟨h2, h1⟩)
    · exact Or.inr (Or.inr ⟨h2.symm, lt_of_le_of_ne h1 (Ne.symm h)⟩)
  · exact Or.inl (Or.inl h2)

theorem rankIn_le_of_sublist {l₁ l₂ : List (ℕ × ℚ)} (h : List.Sublist l₁ l₂) (p : ℕ × ℚ) :
    rankIn l₁ p ≤ rankIn l₂ p :=
  h.countP_le _

theorem rankIn_lt_length {l : List (ℕ × ℚ)} {p : ℕ × ℚ} (hp : p ∈ l) :
    rankIn l p < l.length := by
  unfold rankIn
  rw [List.countP_eq_length_filter]
  exact List.length_filter_lt_length_iff_exists.mpr ⟨p, hp, by simp [betterB_irrefl]⟩

theorem rankIn_lt_of_betterB {l : List (ℕ × ℚ)} (hl : l.Nodup) {p q : ℕ × ℚ}
    (hp : p ∈ l) (hq : q ∈ l) (hb : betterB p q = true) : rankIn l p < rankIn l q := by
  have hsub : (p :: l.filter (fun z => betterB z p)) ⊆ l.filter (fun z => betterB z q) := by
    intro z hz
    rcases List.mem_cons.mp hz with rfl | hz
    · exact List.mem_filter.mpr ⟨hp, hb⟩
    · obtain ⟨hzl, hzb⟩ := List.mem_filter.mp hz
      exact List.mem_filter.mpr ⟨hzl, betterB_trans hzb hb⟩
  have hnd : (p :: l.filter (fun z => betterB z p)).Nodup := by
    refine List.nodup_cons.mpr ⟨?_, hl.filter _⟩
    intro hmem
    have hfalse := (List.mem_filter.mp hmem).2
    simp [betterB_irrefl] at hfalse
  have hlen := (hnd.subperm hsub).length_le
  simp only [List.length_cons] at hlen
  unfold rankIn
  rw [List.countP_eq_length_filter, List.countP_eq_length_filter]
  omega

theorem mem_topkP {k : ℕ} {l : List (ℕ × ℚ)} {p : ℕ × ℚ} :
    p ∈ topkP k l ↔ p ∈ l ∧ rankIn l p < k := by
  simp [topkP, List.mem_filter]

theorem topkP_sublist (k : ℕ) (l : List (ℕ × ℚ)) : List.Sublist (topkP k l) l :=
  List.filter_sublist l

theorem fstNodup_of_sublist {l₁ l₂ : List (ℕ × ℚ)} (h : List.Sublist l₁ l₂)
    (hfst : (l₂.map Prod.fst).Nodup) : (l₁.map Prod.fst).Nodup :=
  List.Nodup.sublist (h.map Prod.fst) hfst

theorem betterB_total_of_mem {l : List (ℕ × ℚ)} (hfst : (l.map Prod.fst).Nodup)
    {p q : ℕ × ℚ} (hp : p ∈ l) (hq : q ∈ l) (hne : p ≠ q) :
    betterB p q = true ∨ betterB q p = true :=
  betterB_total (fun h1 => hne (List.inj_on_of_nodup_map hfst hp hq h1))

theorem length_topkP {l : List (ℕ × ℚ)} (hfst : (l.map Prod.fst).Nodup) (k : ℕ) :
    (topkP k l).length = min k l.length := by
  have hnd : l.Nodup := List.Nodup.of_map Prod.fst hfst
  have hinjOn : Set.InjOn (rankIn l) l.toFinset := by
    intro p hp q hq he
    by_contra hne
    have hpl : p ∈ l := List.mem_toFinset.mp hp
    have hql : q ∈ l := List.mem_toFinset.mp hq
    rcases betterB_total_of_mem hfst hpl hql hne with hb | hb
    · have := rankIn_lt_of_betterB hnd hpl hql hb
      omega
    · have := rankIn_lt_of_betterB hnd hql hpl hb
      omega
  have himage : l.toFinset.image (rankIn l) = Finset.range l.length := by
    refine Finset.eq_of_subset_of_card_le ?_ ?_
    · intro c hc
      obtain ⟨p, hp, rfl⟩ := Finset.mem_image.mp hc
      exact Finset.mem_range.mpr (rankIn_lt_length (List.mem_toFinset.mp hp))
    · rw [Finset.card_range, Finset.card_image_of_injOn hinjOn,
        List.toFinset_card_of_nodup hnd]
  have hset : (l.filter (fun p => decide (rankIn l p < k))).toFinset
      = l.toFinset.filter (fun p => rankIn l p < k) := by
    ext p
    simp [List.mem_filter]
  have hstep1 : (topkP k l).length = (l.toFinset.filter (fun p => rankIn l p < k)).card := by
    unfold topkP
    rw [← hset, List.toFinset_card_of_nodup (hnd.filter _)]
  have hstep2 : (l.toFinset.filter (fun p => rankIn l p < k)).card
      = ((l.toFinset.filter (fun p => rankIn l p < k)).image (rankIn l)).card := by
    rw [Finset.card_image_of_injOn (hinjOn.mono ?_)]
    intro x hx
    exact Finset.filter_subset _ _ hx
  have hstep3 : (l.toFinset.filter (fun p => rankIn l p < k)).image (rankIn l)
      = (Finset.range l.length).filter (fun c => c < k) := by
    ext c
    constructor
    · intro hc
      obtain ⟨p, hp, rfl⟩ := Finset.mem_image.mp hc
      obtain ⟨hpS, hpk⟩ := Finset.mem_filter.mp hp
      refine Finset.mem_filter.mpr ⟨?_, hpk⟩
      rw [← himage]
      exact Finset.mem_image_of_mem _ hpS
    · intro hc
      obtain ⟨hc1, hc2⟩ := Finset.mem_filter.mp hc
      rw [← himage] at hc1
      obtain ⟨p, hp, rfl⟩ := Finset.mem_image.mp hc1
      exact Finset.mem_image_of_mem _ (Finset.mem_filter.mpr ⟨hp, hc2⟩)
  have hstep4 : ((Finset.range l.length).filter (fun c => c < k)).card = min k l.length := by
    have : (Finset.range l.length).filter (fun c => c < k) = Finset.range (min k l.length) := by
      ext c
      simp only [Finset.mem_filter, Finset.mem_range]
      omega
    rw [this, Finset.card_range]
  rw [hstep1, hstep2, hstep3, hstep4]

theorem flatten_map_topkP_sublist (k : ℕ) :
    ∀ L : List (List (ℕ × ℚ)), List.Sublist (L.map (topkP k)).flatten L.flatten
  | [] => List.Sublist.refl []
  | C :: L => by
    simp only [List.map_cons, List.flatten_cons]
    exact List.Sublist.append (topkP_sublist k C) (flatten_map_topkP_sublist k L)

/-- Compositionality of the modelled top-k under a partition with pairwise
distinct indices: taking the top-k of each chunk and then the top-k of the
concatenated candidates selects exactly the top-k entries of the whole
concatenation.  This is the correctness core of the tiled two-pass top-k of
TopKTiledSoftmax.forward. -/
theorem mem_topkP_flatten_iff (k : ℕ) (L : List (List (ℕ × ℚ)))
    (hfst : (L.flatten.map Prod.fst).Nodup) (p : ℕ × ℚ) :
    p ∈ topkP k (L.map (topkP k)).flatten ↔ p ∈ topkP k L.flatten := by
  have hsub : List.Sublist (L.map (topkP k)).flatten L.flatten := flatten_map_topkP_sublist k L
  have hndF : L.flatten.Nodup := List.Nodup.of_map Prod.fst hfst
  constructor
  · intro hp
    obtain ⟨hpc, hrc⟩ := mem_topkP.mp hp
    have hpF : p ∈ L.flatten := hsub.subset hpc
    refine mem_topkP.mpr ⟨hpF, ?_⟩
    by_contra hge
    push_neg at hge
    have hHFlen : k ≤ (L.flatten.filter (fun z => betterB z p)).length := by
      have hc := List.countP_eq_length_filter (l := L.flatten) (p := fun z => betterB z p)
      unfold rankIn at hge
      omega
    by_cases hall : ∀ z ∈ L.flatten.filter (fun z => betterB z p), z ∈ (L.map (topkP k)).flatten
    · have hsub2 : L.flatten.filter (fun z => betterB z p)
          ⊆ (L.map (topkP k)).flatten.filter (fun z => betterB z p) := by
        intro z hz
        exact List.mem_filter.mpr ⟨hall z hz, (List.mem_filter.mp hz).2⟩
      have hle := ((hndF.filter _).subperm hsub2).length_le
      have hcand : k ≤ rankIn (L.map (topkP k)).flatten p := by
        unfold rankIn
        rw [List.countP_eq_length_filter]
        omega
      omega
    · push_neg at hall
      obtain ⟨q, hqHF, hqnc⟩ := hall
      obtain ⟨hqF, hqb⟩ := List.mem_filter.mp hqHF
      obtain ⟨C, hCL, hqC⟩ := List.mem_flatten.mp hqF
      have hCf : (C.map Prod.fst).Nodup :=
        fstNodup_of_sublist (List.sublist_flatten_of_mem hCL) hfst
      have hCnd : C.Nodup := List.Nodup.of_map Prod.fst hCf
      have hqrk : k ≤ rankIn C q := by
        by_contra hlt
        push_neg at hlt
        exact hqnc (List.mem_flatten.mpr
          ⟨topkP k C, List.mem_map_of_mem _ hCL, mem_topkP.mpr ⟨hqC, hlt⟩⟩)
      have hbeat : ∀ z ∈ topkP k C, betterB z p = true := by
        intro z hz
        obtain ⟨hzC, hzr⟩ := mem_topkP.mp hz
        have hzq : betterB z q = true := by
          have hne : z ≠ q := by
            rintro rfl
            omega
          rcases betterB_total_of_mem hCf hzC hqC hne with hb | hb
          · exact hb
          · exfalso
            have := rankIn_lt_of_betterB hCnd hqC hzC hb
            omega
        exact betterB_trans hzq hqb
      have hsubC : topkP k C ⊆ (L.map (topkP k)).flatten.filter (fun z => betterB z p) := by
        intro z hz
        refine List.mem_filter.mpr ⟨?_, hbeat z hz⟩
        exact List.mem_flatten.mpr ⟨topkP k C, List.mem_map_of_mem _ hCL, hz⟩
      have hlenC : (topkP k C).length = min k C.length := length_topkP hCf k
      have hCk : k ≤ C.length := le_of_lt (lt_of_le_of_lt hqrk (rankIn_lt_length hqC))
      have hle := ((hCnd.filter _).subperm hsubC).length_le
      have hcand : k ≤ rankIn (L.map (topkP k)).flatten p := by
        unfold rankIn
        rw [List.countP_eq_length_filter]
        unfold topkP at hlenC
        omega
      omega
  · intro hp
    obtain ⟨hpF, hrF⟩ := mem_topkP.mp hp
    obtain ⟨C, hCL, hpC⟩ := List.mem_flatten.mp hpF
    have hrC : rankIn C p < k :=
      lt_of_le_of_lt (rankIn_le_of_sublist (List.sublist_flatten_of_mem hCL) p) hrF
    have hpc : p ∈ (L.map (topkP k)).flatten :=
      List.mem_flatten.mpr ⟨topkP k C, List.mem_map_of_mem _ hCL, mem_topkP.mpr ⟨hpC, hrC⟩⟩
    exact mem_topkP.mpr ⟨hpc, lt_of_le_of_lt (rankIn_le_of_sublist hsub p) hrF⟩

theorem betterB_shift (b : ℕ) (p q : ℕ × ℚ) :
    betterB (p.1 + b, p.2) (q.1 + b, q.2) = betterB p q := by
  simp [betterB, Nat.add_lt_add_iff_right]

theorem rankIn_shiftIdx (b : ℕ) (l : List (ℕ × ℚ)) (p : ℕ × ℚ) :
    rankIn (shiftIdx b l) (p.1 + b, p.2) = rankIn l p := by
  unfold rankIn shiftIdx
  rw [List.countP_map]
  apply List.countP_congr
  intro q hq
  rw [Function.comp_apply, betterB_shift b q p]

theorem topkP_shiftIdx (k b : ℕ) (l : List (ℕ × ℚ)) :
    topkP k (shiftIdx b l) = shiftIdx b (topkP k l) := by
  unfold topkP
  rw [show shiftIdx b l = l.map (fun p => (p.1 + b, p.2)) from rfl, List.filter_map]
  rw [show shiftIdx b (List.filter (fun p => decide (rankIn l p < k)) l)
      = (List.filter (fun p => decide (rankIn l p < k)) l).map (fun p => (p.1 + b, p.2)) from rfl]
  congr 1
  apply List.filter_congr
  intro p hp
  rw [Function.comp_apply]
  have h := rankIn_shiftIdx b l p
  rw [show shiftIdx b l = l.map (fun p => (p.1 + b, p.2)) from rfl] at h
  rw [h]

theorem shiftIdx_enumFrom (b : ℕ) :
    ∀ (x : List ℚ) (n : ℕ), shiftIdx b (x.enumFrom n) = x.enumFrom (n + b)
  | [], _ => rfl
  | v :: x, n => by
    rw [List.enumFrom_cons, List.enumFrom_cons]
    show (n + b, v) :: shiftIdx b (x.enumFrom (n + 1)) = (n + b, v) :: x.enumFrom (n + b + 1)
    rw [shiftIdx_enumFrom b x (n + 1), show n + 1 + b = n + b + 1 from by omega]

theorem topkP_enumFrom_eq_shift (k b : ℕ) (x : List ℚ) :
    topkP k (x.enumFrom b) = shiftIdx b (topkP k x.enum) := by
  have h : x.enumFrom b = shiftIdx b x.enum := by
    rw [show x.enum = x.enumFrom 0 from rfl, shiftIdx_enumFrom b x 0, Nat.zero_add]
  rw [h, topkP_shiftIdx]

theorem enumTiles_flatten :
    ∀ (xs : List (List ℚ)) (base : ℕ), (enumTiles base xs).flatten = xs.flatten.enumFrom base
  | [], _ => rfl
  | x :: xs, base => by
    show (x.enumFrom base) ++ (enumTiles (base + x.length) xs).flatten
        = ((x :: xs).flatten).enumFrom base
    rw [enumTiles_flatten xs (base + x.length), List.flatten_cons, List.enumFrom_append]

theorem enumTiles_fst_nodup (xs : List (List ℚ)) (base : ℕ) :
    ((enumTiles base xs).flatten.map Prod.fst).Nodup := by
  rw [enumTiles_flatten, List.enumFrom_map_fst]
  exact List.nodup_range' _ _

theorem listSplit_flatten (s : ℕ) : ∀ l : List α, (listSplit (s + 1) l).flatten = l
  | [] => by simp [listSplit]
  | a :: l => by
    rw [listSplit]
    rw [List.flatten_cons, listSplit_flatten s (l.drop s)]
    rw [show l.drop s = (a :: l).drop (s + 1) from rfl]
    exact List.take_append_drop (s + 1) (a :: l)
termination_by l => l.length
decreasing_by simp only [List.length_cons, List.length_drop]; omega

theorem projRow_length (w : List (List ℚ)) (a : List ℚ) : (projRow w a).length = w.length := by
  unfold projRow
  exact List.length_map w (dot a)

theorem tileCandidatesRow_eq (k : ℕ) (a : List ℚ) :
    ∀ (ts : List (List (List ℚ))) (base : ℕ), (∀ t ∈ ts, k ≤ t.length) →
    tileCandidatesRow k a base ts
      = some (((enumTiles base (ts.map (fun t => projRow t a))).map (topkP k)).flatten)
  | [], _, _ => rfl
  | t :: ts, base, h => by
    have hlen : (projRow t a).length = t.length := projRow_length t a
    have hk : k ≤ (projRow t a).length := by
      rw [hlen]
      exact h t (List.mem_cons_self t ts)
    have hrest := tileCandidatesRow_eq k a ts (base + t.length)
      (fun u hu => h u (List.mem_cons_of_mem t hu))
    show (do
      let c ← torchTopkRow k (projRow t a)
      let rest ← tileCandidatesRow k a (base + t.length) ts
      pure (shiftIdx base c ++ rest)) = _
    rw [hrest]
    unfold torchTopkRow
    rw [if_pos hk]
    show some (shiftIdx base (topkP k (projRow t a).enum) ++ _) = _
    rw [List.map_cons]
    show _ = some ((topkP k ((projRow t a).enumFrom base)
      :: (enumTiles (base + (projRow t a).length) (ts.map (fun u => projRow u a))).map (topkP k)).flatten)
    rw [List.flatten_cons, topkP_enumFrom_eq_shift, hlen]

theorem tileCandidatesRow_none (k : ℕ) (a : List ℚ) :
    ∀ (ts : List (List (List ℚ))) (base : ℕ), (∃ t ∈ ts, t.length < k) →
    tileCandidatesRow k a base ts = none
  | [], _, h => by
    obtain ⟨t, ht, _⟩ := h
    exact absurd ht (List.not_mem_nil t)
  | t :: ts, base, h => by
    by_cases hk : k ≤ (projRow t a).length
    · obtain ⟨u, hu, hul⟩ := h
      rcases List.mem_cons.mp hu with rfl | hu2
      · rw [projRow_length] at hk
        omega
      · show (do
          let c ← torchTopkRow k (projRow t a)
          let rest ← tileCandidatesRow k a (base + t.length) ts
          pure (shiftIdx base c ++ rest)) = none
        rw [tileCandidatesRow_none k a ts (base + t.length) ⟨u, hu2, hul⟩]
        unfold torchTopkRow
        rw [if_pos hk]
        rfl
    · show (do
        let c ← torchTopkRow k (projRow t a)
        let rest ← tileCandidatesRow k a (base + t.length) ts
        pure (shiftIdx base c ++ rest)) = none
      unfold torchTopkRow
      rw [if_neg hk]
      rfl

theorem mapO_eq_some {f : α → Option β} :
    ∀ {l : List α} {out : List β}, mapO f l = some out →
      l.length = out.length ∧ ∀ (i : ℕ) (da : α) (db : β), i < l.length →
        f (l.getD i da) = some (out.getD i db)
  | [], out, h => by
    simp only [mapO, Option.some.injEq] at h
    subst h
    exact ⟨rfl, fun i _ _ hi => by simp at hi⟩
  | a :: l, out, h => by
    cases hfa : f a with
    | none =>
      unfold mapO at h
      rw [hfa] at h
      simp at h
    | some b =>
      cases hml : mapO f l with
      | none =>
        unfold mapO at h
        rw [hfa, hml] at h
        simp at h
      | some bs =>
        unfold mapO at h
        rw [hfa, hml] at h
        simp only [Option.some.injEq] at h
        obtain ⟨hlen, hget⟩ := mapO_eq_some hml
        subst h
        refine ⟨by simp [hlen], ?_⟩
        intro i da db hi
        cases i with
        | zero => simpa using hfa
        | succ n =>
          simp only [List.getD_cons_succ]
          exact hget n da db (by simpa using Nat.lt_of_succ_lt_succ hi)

theorem mapO_isSome {f : α → Option β} :
    ∀ {l : List α}, (∀ a ∈ l, (f a).isSome) → (mapO f l).isSome
  | [], _ => rfl
  | a :: l, h => by
    have h1 := h a (List.mem_cons_self a l)
    have h2 := mapO_isSome (fun u hu => h u (List.mem_cons_of_mem a hu))
    unfold mapO
    cases hfa : f a with
    | none => rw [hfa] at h1; simp at h1
    | some b =>
      cases hml : mapO f l with
      | none => rw [hml] at h2; simp at h2
      | some bs => rfl

theorem mapO_cons_none {f : α → Option β} {a : α} {l : List α} (h : f a = none) :
    mapO f (a :: l) = none := by
  unfold mapO
  rw [h]

theorem sumVal_append (c : ℕ) (es1 es2 : List (ℕ × ℚ)) :
    sumVal c (es1 ++ es2) = sumVal c es1 + sumVal c es2 := by
  unfold sumVal
  rw [List.filter_append, List.map_append, List.sum_append]

theorem sumVal_single (c t : ℕ) (v : ℚ) : sumVal c [(t, v)] = if t = c then v else 0 := by
  unfold sumVal
  by_cases h : t = c <;> simp [h]

theorem sumVal_of_mem {es : List (ℕ × ℚ)} (hfst : (es.map Prod.fst).Nodup) {c : ℕ} {v : ℚ}
    (hmem : (c, v) ∈ es) : sumVal c es = v := by
  induction es with
  | nil => simp at hmem
  | cons p rest ih =>
    simp only [List.map_cons, List.nodup_cons] at hfst
    rcases List.mem_cons.mp hmem with rfl | h2
    · have hrest : rest.filter (fun q => decide (q.1 = c)) = [] := by
        rw [List.filter_eq_nil_iff]
        intro q hq hqc
        simp only [decide_eq_true_eq] at hqc
        have hmm : q.1 ∈ rest.map Prod.fst := List.mem_map_of_mem Prod.fst hq
        rw [hqc] at hmm
        exact hfst.1 hmm
      unfold sumVal
      simp [hrest]
    · have hne : p.1 ≠ c := by
        intro he
        have : c ∈ rest.map Prod.fst := by
          have := List.mem_map_of_mem Prod.fst h2
          simpa using this
        exact hfst.1 (he ▸ this)
      unfold sumVal
      rw [List.filter_cons_of_neg (by simpa using hne)]
      exact ih hfst.2 h2

theorem getD_of_mem_enumFrom {x : List ℚ} {n i : ℕ} {v : ℚ} (h : (i, v) ∈ x.enumFrom n) :
    n ≤ i ∧ i < n + x.length ∧ x.getD (i - n) 0 = v := by
  obtain ⟨h1, h2, h3⟩ := List.mem_enumFrom h
  refine ⟨h1, h2, ?_⟩
  rw [List.getD_eq_getElem?_getD, List.getElem?_eq_getElem (by omega)]
  simp [h3]

theorem getD_mem_enumFrom :
    ∀ (x : List ℚ) (n c : ℕ), c < x.length → (n + c, x.getD c 0) ∈ x.enumFrom n
  | [], _, c, h => by simp at h
  | a :: x, n, 0, _ => by simp [List.enumFrom_cons]
  | a :: x, n, c + 1, h => by
    rw [List.enumFrom_cons]
    refine List.mem_cons_of_mem _ ?_
    have hrec := getD_mem_enumFrom x (n + 1) c (by simpa using Nat.lt_of_succ_lt_succ h)
    have harith : n + 1 + c = n + (c + 1) := by omega
    rw [harith] at hrec
    simpa [List.getD_cons_succ] using hrec

theorem enum_fst_nodup (x : List ℚ) : (x.enum.map Prod.fst).Nodup := by
  rw [show x.enum = x.enumFrom 0 from rfl, List.enumFrom_map_fst]
  exact List.nodup_range' _ _

theorem listSplit_ne_nil (s : ℕ) {l : List α} (hl : l ≠ []) : listSplit (s + 1) l ≠ [] := by
  cases l with
  | nil => exact absurd rfl hl
  | cons a l =>
    rw [listSplit]
    simp

theorem sparseRowSoftmaxDense_getD (E : ℚ → ℚ) (vocab : ℕ) (es : List (ℕ × ℚ)) (c : ℕ)
    (hc : c < vocab) :
    (sparseRowSoftmaxDense E vocab es).getD c 0
      = if c ∈ supportCols es then E (sumVal c es) / rowNorm E es else 0 := by
  unfold sparseRowSoftmaxDense
  rw [List.getD_eq_getElem?_getD, List.getElem?_eq_getElem (by simpa using hc)]
  simp

theorem rowNorm_pos (E : ℚ → ℚ) (hE : ∀ x, 0 < E x) {es : List (ℕ × ℚ)} (hne : es ≠ []) :
    0 < rowNorm E es := by
  unfold rowNorm
  apply List.sum_pos
  · intro x hx
    obtain ⟨c, _, rfl⟩ := List.mem_map.mp hx
    exact hE _
  · simp only [ne_eq, List.map_eq_nil_iff, supportCols, List.dedup_eq_nil]
    intro hmap
    exact hne hmap

theorem sum_list_range_map (f : ℕ → ℚ) : ∀ n : ℕ, ((List.range n).map f).sum = ∑ c ∈ Finset.range n, f c
  | 0 => rfl
  | n + 1 => by
    rw [List.range_succ, Finset.sum_range_succ, List.map_append, List.sum_append,
      sum_list_range_map f n]
    simp

theorem sparseRowSoftmaxDense_sum (E : ℚ → ℚ) (hE : ∀ x, 0 < E x) (vocab : ℕ)
    (es : List (ℕ × ℚ)) (hne : es ≠ []) (hsub : ∀ c ∈ supportCols es, c < vocab) :
    (sparseRowSoftmaxDense E vocab es).sum = 1 := by
  unfold sparseRowSoftmaxDense
  rw [sum_list_range_map]
  have h1 : ∀ c ∈ Finset.range vocab,
      (if c ∈ supportCols es then E (sumVal c es) / rowNorm E es else 0)
        = (if c ∈ (supportCols es).toFinset then E (sumVal c es) / rowNorm E es else 0) := by
    intro c _
    simp [List.mem_toFinset]
  rw [Finset.sum_congr rfl h1, Finset.sum_ite_mem]
  have h2 : Finset.range vocab ∩ (supportCols es).toFinset = (supportCols es).toFinset := by
    apply Finset.inter_eq_right.mpr
    intro c hc
    exact Finset.mem_range.mpr (hsub c (List.mem_toFinset.mp hc))
  rw [h2, ← Finset.sum_div]
  rw [List.sum_toFinset _ (show (supportCols es).Nodup by unfold supportCols; exact List.nodup_dedup _)]
  exact div_self (ne_of_gt (rowNorm_pos E hE hne))

theorem ttskForward_row (E : ℚ → ℚ) (w : List (List ℚ)) (k tf : ℕ)
    (input : List (List ℚ)) (target : List ℕ) (out : List (List ℚ))
    (hfw : ttskForward E w k tf input target = some out)
    (j : ℕ) (hj : j < input.length) (hjt : j < target.length) :
    w.length / tf ≠ 0 ∧
    ∃ es, ttskRowEntries k w (listSplit (w.length / tf) w) (input.getD j []) (target.getD j 0)
        = some es
      ∧ out.getD j [] = sparseRowSoftmaxDense E w.length es := by
  unfold ttskForward at hfw
  by_cases hs : w.length / tf = 0
  · rw [if_pos hs] at hfw
    exact absurd hfw (by simp)
  · rw [if_neg hs] at hfw
    obtain ⟨hlen, hget⟩ := mapO_eq_some hfw
    have hjz : j < (input.zip target).length := by
      rw [List.length_zip]
      omega
    have hrow := hget j ([], 0) [] hjz
    have hzget : (input.zip target).getD j ([], 0) = (input.getD j [], target.getD j 0) := by
      rw [List.getD_eq_getElem?_getD, List.getElem?_eq_getElem hjz, List.getElem_zip]
      rw [List.getD_eq_getElem?_getD (l := input), List.getElem?_eq_getElem hj]
      rw [List.getD_eq_getElem?_getD (l := target), List.getElem?_eq_getElem hjt]
      rfl
    rw [hzget] at hrow
    obtain ⟨es, hes, hout⟩ := Option.map_eq_some'.mp hrow
    exact ⟨hs, es, hes, hout.symm⟩

theorem ttskRowEntries_some_eq (k : ℕ) (w : List (List ℚ)) (s' : ℕ) (a : List ℚ) (t0 : ℕ)
    (es : List (ℕ × ℚ))
    (htiles : ∀ t ∈ listSplit (s' + 1) w, k ≤ t.length)
    (hes : ttskRowEntries k w (listSplit (s' + 1) w) a t0 = some es) :
    ∃ sel, es = sel ++ [(t0, dot a (w.getD t0 []))]
      ∧ (∀ p, p ∈ sel ↔ p ∈ topkP k ((projRow w a).enum))
      ∧ List.Sublist sel ((projRow w a).enum) := by
  have hfull : ((listSplit (s' + 1) w).map (fun t => projRow t a)).flatten = projRow w a := by
    unfold projRow
    rw [← List.map_flatten, listSplit_flatten]
  have hcand := tileCandidatesRow_eq k a (listSplit (s' + 1) w) 0 htiles
  unfold ttskRowEntries at hes
  rw [hcand] at hes
  simp only [Option.bind_eq_bind, Option.some_bind] at hes
  set CV := (((enumTiles 0 ((listSplit (s' + 1) w).map (fun t => projRow t a))).map
    (topkP k)).flatten) with hCV
  unfold torchTopkPairs at hes
  by_cases hkc : k ≤ CV.length
  · rw [if_pos hkc] at hes
    simp only [Option.some_bind, Option.pure_def, Option.some.injEq] at hes
    have hflat : (enumTiles 0 ((listSplit (s' + 1) w).map (fun t => projRow t a))).flatten
        = (projRow w a).enum := by
      rw [enumTiles_flatten, hfull]
      rfl
    refine ⟨topkP k CV, hes.symm, ?_, ?_⟩
    · intro p
      have hiff := mem_topkP_flatten_iff k
        (enumTiles 0 ((listSplit (s' + 1) w).map (fun t => projRow t a)))
        (by rw [hflat]; exact enum_fst_nodup (projRow w a)) p
      rw [hflat] at hiff
      exact hiff
    · have h1 : List.Sublist (topkP k CV) CV := topkP_sublist k CV
      have h2 : List.Sublist CV ((projRow w a).enum) := by
        rw [hCV, ← hflat]
        exact flatten_map_topkP_sublist k _
      exact h1.trans h2
  · rw [if_neg hkc] at hes
    simp at hes

theorem ttskRow_analysis (E : ℚ → ℚ) (w : List (List ℚ)) (k tf : ℕ)
    (input : List (List ℚ)) (target : List ℕ) (out : List (List ℚ))
    (htiles : ∀ t ∈ listSplit (w.length / tf) w, k ≤ t.length)
    (hfw : ttskForward E w k tf input target = some out)
    (j : ℕ) (hj : j < input.length) (hjt : j < target.length) :
    ∃ es, out.getD j [] = sparseRowSoftmaxDense E w.length es
      ∧ es ≠ []
      ∧ (∀ c : ℕ, c ∈ supportCols es ↔
          (c ∈ topkCols k (projRow w (input.getD j [])) ∨ c = target.getD j 0))
      ∧ (∀ c ∈ supportCols es, c = target.getD j 0 ∨ c < w.length) := by
  obtain ⟨hs, es, hes, hout⟩ := ttskForward_row E w k tf input target out hfw j hj hjt
  obtain ⟨s', hs'⟩ := Nat.exists_eq_succ_of_ne_zero hs
  rw [hs'] at hes htiles
  obtain ⟨sel, hsel, hmem, hsub⟩ :=
    ttskRowEntries_some_eq k w s' (input.getD j []) (target.getD j 0) es htiles hes
  refine ⟨es, hout, by simp [hsel], ?_, ?_⟩
  · intro c
    unfold supportCols
    rw [List.mem_dedup, hsel, List.map_append, List.mem_append]
    constructor
    · rintro (hc | hc)
      · obtain ⟨p, hp, rfl⟩ := List.mem_map.mp hc
        left
        unfold topkCols
        exact List.mem_map_of_mem Prod.fst ((hmem p).mp hp)
      · right
        simpa using hc
    · rintro (hc | rfl)
      · obtain ⟨p, hp, rfl⟩ := List.mem_map.mp hc
        left
        exact List.mem_map_of_mem Prod.fst ((hmem p).mpr hp)
      · right
        simp
  · intro c hc
    unfold supportCols at hc
    rw [List.mem_dedup, hsel, List.map_append, List.mem_append] at hc
    rcases hc with hc | hc
    · obtain ⟨p, hp, rfl⟩ := List.mem_map.mp hc
      right
      have hpe : p ∈ (projRow w (input.getD j [])).enum := hsub.subset hp
      have hb := getD_of_mem_enumFrom (n := 0) (by simpa using hpe)
      rw [projRow_length] at hb
      omega
    · left
      simpa using hc

theorem topkCols_length (k : ℕ) (row : List ℚ) (hk : k ≤ row.length) :
    (topkCols k row).length = k := by
  unfold topkCols
  rw [List.length_map, length_topkP (enum_fst_nodup row)]
  simpa using hk

theorem topkCols_largest (k : ℕ) (row : List ℚ) :
    ∀ i ∈ topkCols k row, ∀ c : ℕ, c < row.length → c ∉ topkCols k row →
      row.getD c 0 ≤ row.getD i 0 := by
  intro i hi c hc hcn
  obtain ⟨p, hp, rfl⟩ := List.mem_map.mp hi
  obtain ⟨hpe, hpr⟩ := mem_topkP.mp hp
  obtain ⟨_, _, hpv⟩ := getD_of_mem_enumFrom (n := 0) (by simpa using hpe)
  rw [Nat.sub_zero] at hpv
  have hce : (c, row.getD c 0) ∈ row.enum := by
    have := getD_mem_enumFrom row 0 c hc
    simpa using this
  have hcr : ¬ rankIn row.enum (c, row.getD c 0) < k := by
    intro hlt
    exact hcn (List.mem_map_of_mem Prod.fst (mem_topkP.mpr ⟨hce, hlt⟩))
  by_contra hgt
  push_neg at hgt
  have hb : betterB (c, row.getD c 0) p = true := by
    simp only [betterB, Bool.or_eq_true, decide_eq_true_eq]
    left
    rw [← hpv]
    exact hgt
  have := rankIn_lt_of_betterB (List.Nodup.of_map Prod.fst (enum_fst_nodup row)) hce hpe hb
  omega

/-- Claim C1: with 0 < k and k at most the width of every weight tile, each
token row of the dense output of TopKTiledSoftmax.forward is nonzero exactly
at the union of the vocabulary columns of the k largest logits of the full
projection for that token and the ground-truth label column; in particular
the label column is always nonzero.  The selected column set has exactly k
columns and its logits dominate every unselected logit of the row. -/
theorem ttsk_support_characterization
    (E : ℚ → ℚ) (hE : ∀ x : ℚ, 0 < E x)
    (w : List (List ℚ)) (k tf : ℕ) (input : List (List ℚ)) (target : List ℕ)
    (out : List (List ℚ))
    (hk : 0 < k)
    (htiles : ∀ t ∈ listSplit (w.length / tf) w, k ≤ t.length)
    (hfw : ttskForward E w k tf input target = some out)
    (j : ℕ) (hj : j < input.length) (hjt : j < target.length)
    (hlab : target.getD j 0 < w.length) :
    (∀ c : ℕ, c < w.length →
        ((out.getD j []).getD c 0 ≠ 0 ↔
          (c ∈ topkCols k (projRow w (input.getD j [])) ∨ c = target.getD j 0)))
    ∧ (out.getD j []).getD (target.getD j 0) 0 ≠ 0
    ∧ (topkCols k (projRow w (input.getD j []))).length = k
    ∧ (∀ i ∈ topkCols k (projRow w (input.getD j [])),
        ∀ c : ℕ, c < w.length → c ∉ topkCols k (projRow w (input.getD j [])) →
          (projRow w (input.getD j [])).getD c 0 ≤ (projRow w (input.getD j [])).getD i 0) := by
  obtain ⟨hs, _, _, _⟩ := ttskForward_row E w k tf input target out hfw j hj hjt
  obtain ⟨es, hout, hne, hmemiff, _⟩ :=
    ttskRow_analysis E w k tf input target out htiles hfw j hj hjt
  have hmain : ∀ c : ℕ, c < w.length →
      ((out.getD j []).getD c 0 ≠ 0 ↔
        (c ∈ topkCols k (projRow w (input.getD j [])) ∨ c = target.getD j 0)) := by
    intro c hc
    rw [hout, sparseRowSoftmaxDense_getD E w.length es c hc]
    by_cases hcs : c ∈ supportCols es
    · rw [if_pos hcs]
      have hpos : 0 < E (sumVal c es) / rowNorm E es :=
        div_pos (hE _) (rowNorm_pos E hE hne)
      simp only [ne_of_gt hpos, ne_eq, not_false_iff, true_iff]
      exact (hmemiff c).mp hcs
    · rw [if_neg hcs]
      simp only [ne_eq, not_true_eq_false, false_iff, not_not]
      intro hrhs
      exact absurd ((hmemiff c).mpr hrhs) hcs
  have hwlen : 0 < w.length := by
    by_contra hz
    push_neg at hz
    interval_cases hw : w.length
    · exact hs (by simp [hw])
  have hkw : k ≤ w.length := by
    obtain ⟨s', hs'⟩ := Nat.exists_eq_succ_of_ne_zero hs
    have hwne : w ≠ [] := by
      intro hwe
      rw [hwe] at hwlen
      simp at hwlen
    obtain ⟨t, ht⟩ := List.exists_mem_of_ne_nil _ (listSplit_ne_nil s' hwne)
    have h1 : k ≤ t.length := htiles t (hs' ▸ ht)
    have h2 : t.length ≤ w.length := by
      have hsubt := List.sublist_flatten_of_mem ht
      have := hsubt.length_le
      rw [listSplit_flatten] at this
      exact this
    omega
  refine ⟨hmain, ?_, ?_, ?_⟩
  · exact (hmain (target.getD j 0) hlab).mpr (Or.inr rfl)
  · rw [topkCols_length k _ (by rw [projRow_length]; exact hkw)]
  · intro i hi c hc hcn
    exact topkCols_largest k _ i hi c (by rw [projRow_length]; exact hc) hcn

/-- Witness for the support characterization of TopKTiledSoftmax.forward at
a concrete input: one token with logits [2, 1], k = 1, label 0. -/
theorem ttsk_support_characterization_witness :
    ttskForward oneFun [[2], [1]] 1 1 [[1]] [0] = some [[1, 0]]
    ∧ ([[(1 : ℚ), 0]].getD 0 []).getD 0 0 ≠ 0 :=
  ⟨by with_unfolding_all decide,
    (ttsk_support_characterization oneFun (fun _ => zero_lt_one) [[2], [1]] 1 1 [[1]] [0]
      [[1, 0]] (by decide) (by with_unfolding_all decide) (by with_unfolding_all decide)
      0 (by decide) (by decide) (by decide)).2.1⟩

/-- Claim C6: with 0 < k and k at most the width of every tile, each token
row of the output of TopKTiledSoftmax.forward sums to one in exact
arithmetic; as every column outside the selected support is exactly zero,
the sum restricted to the nonzero entries is this same sum, so the softmax
is normalized over the restricted support only. -/
theorem ttsk_row_sum_one
    (E : ℚ → ℚ) (hE : ∀ x : ℚ, 0 < E x)
    (w : List (List ℚ)) (k tf : ℕ) (input : List (List ℚ)) (target : List ℕ)
    (out : List (List ℚ))
    (hk : 0 < k)
    (htiles : ∀ t ∈ listSplit (w.length / tf) w, k ≤ t.length)
    (hfw : ttskForward E w k tf input target = some out)
    (j : ℕ) (hj : j < input.length) (hjt : j < target.length)
    (hlab : target.getD j 0 < w.length) :
    (out.getD j []).sum = 1 := by
  obtain ⟨es, hout, hne, _, hbound⟩ :=
    ttskRow_analysis E w k tf input target out htiles hfw j hj hjt
  rw [hout]
  apply sparseRowSoftmaxDense_sum E hE w.length es hne
  intro c hc
  rcases hbound c hc with rfl | h
  · exact hlab
  · exact h

/-- Witness for the per-row normalization of TopKTiledSoftmax.forward at a
concrete input: one token with logits [2, 1], k = 1, label 0. -/
theorem ttsk_row_sum_one_witness :
    ttskForward oneFun [[2], [1]] 1 1 [[1]] [0] = some [[1, 0]]
    ∧ ([[(1 : ℚ), 0]].getD 0 []).sum = 1 :=
  ⟨by with_unfolding_all decide,
    ttsk_row_sum_one oneFun (fun _ => zero_lt_one) [[2], [1]] 1 1 [[1]] [0] [[1, 0]]
      (by decide) (by with_unfolding_all decide) (by with_unfolding_all decide)
      0 (by decide) (by decide) (by decide)⟩

/-- Claim C2 is violated by the code (failing input): one token with
activation [1], weight rows [2] and [1], k = 1, tile_factor 1, label 0.
The label column 0 is also the top-1 column, yet the sparse structure built
by TopKTiledSoftmax.forward holds the entry twice, and coalescing stores
2 + 2 = 4 at (0, 0): the sum of the top-k contribution and the recomputed
label contribution, not the logit 2 inserted once. -/
theorem ttsk_label_double_count :
    ttskRowEntries 1 [[2], [1]] (listSplit 2 [[2], [1]]) [1] 0 = some [(0, 2), (0, 2)]
    ∧ sumVal 0 [(0, 2), (0, 2)] = 4
    ∧ dot [1] ([[2], [1]].getD 0 []) = 2
    ∧ (4 : ℚ) ≠ 2 := by
  with_unfolding_all decide

/-- Claim C3 is violated by the code (failing input): with k equal to the
full vocabulary size 2 and a single tile, TopKTiledSoftmax.forward does not
reproduce BaselineSoftmax in exact arithmetic, because the label logit is
accumulated twice before the sparse softmax: under the strictly positive
normalizer sqPlusOne the tiled kernel returns [17/19, 2/19] while the dense
baseline returns [5/7, 2/7]. -/
theorem ttsk_full_vocab_differs :
    ttskForward sqPlusOne [[2], [1]] 2 1 [[1]] [0] = some [[17/19, 2/19]]
    ∧ baselineForward sqPlusOne [[2], [1]] [[1]] [0] = [[5/7, 2/7]]
    ∧ ttskForward sqPlusOne [[2], [1]] 2 1 [[1]] [0]
        ≠ some (baselineForward sqPlusOne [[2], [1]] [[1]] [0])
    ∧ (∀ x : ℚ, 0 < sqPlusOne x) := by
  refine ⟨by with_unfolding_all decide, by with_unfolding_all decide,
    by with_unfolding_all decide, ?_⟩
  intro x
  unfold sqPlusOne
  have := mul_self_nonneg x
  linarith

/-- Claim C8: the distribution returned by TopKTiledSoftmax.forward always
has full precision float32 elements: the per-tile projection, top-k and
sparse accumulation run in the weight dtype and result.float() is applied
exactly when that dtype is float16; BaselineSoftmax casts identically. -/
theorem ttsk_output_dtype_full_precision :
    ∀ d : DType, ttskOutputDtype d = DType.float32 ∧ baselineOutputDtype d = DType.float32 := by
  intro d
  cases d <;> exact ⟨rfl, rfl⟩

/-- Claim C10: TopKFaissSoftmax.forward ignores the ground-truth label
vector entirely: its result is the distance component of the external
faiss.knn_gpu call applied to the activation, the stored weight and k only,
so any two label vectors produce identical output. -/
theorem faiss_ignores_target
    (knn : List (List ℚ) → List (List ℚ) → ℕ → List (List ℚ) × List (List ℕ))
    (b : List (List ℚ)) (k : ℕ) (input : List (List ℚ)) (t1 t2 : List ℕ) :
    topKFaissForward knn b k input t1 = topKFaissForward knn b k input t2
    ∧ topKFaissForward knn b k input t1 = (knn input b k).1 :=
  ⟨rfl, rfl⟩

/-- Counterexample to claim C7 as stated: k = 0 violates 0 < k, yet
TopKTiledSoftmax.forward does not fail with any precondition error: it
succeeds and returns the label-only distribution. -/
theorem ttsk_k_zero_succeeds :
    ttskForward oneFun [[2], [1]] 0 1 [[1]] [0] = some [[1, 0]] := by
  with_unfolding_all decide

theorem ttskRowEntries_isSome (k : ℕ) (w : List (List ℚ)) (s' : ℕ) (a : List ℚ) (t0 : ℕ)
    (hw : w ≠ [])
    (htiles : ∀ t ∈ listSplit (s' + 1) w, k ≤ t.length) :
    (ttskRowEntries k w (listSplit (s' + 1) w) a t0).isSome := by
  have hcand := tileCandidatesRow_eq k a (listSplit (s' + 1) w) 0 htiles
  unfold ttskRowEntries
  rw [hcand]
  simp only [Option.bind_eq_bind, Option.some_bind]
  unfold torchTopkPairs
  rw [if_pos ?hk]
  · rfl
  case hk =>
    obtain ⟨t, ts, hts⟩ : ∃ t ts, listSplit (s' + 1) w = t :: ts := by
      cases h : listSplit (s' + 1) w with
      | nil => exact absurd h (listSplit_ne_nil s' hw)
      | cons t ts => exact ⟨t, ts, rfl⟩
    rw [hts]
    show k ≤ ((topkP k ((projRow t a).enumFrom 0))
      :: (enumTiles (0 + (projRow t a).length) (ts.map (fun u => projRow u a))).map
        (topkP k)).flatten.length
    rw [List.flatten_cons, List.length_append]
    have h1 : (topkP k ((projRow t a).enumFrom 0)).length = k := by
      rw [length_topkP (by rw [List.enumFrom_map_fst]; exact List.nodup_range' _ _)]
      have hl : k ≤ (projRow t a).length := by
        rw [projRow_length]
        exact htiles t (hts ▸ List.mem_cons_self t ts)
      rw [List.enumFrom_length]
      omega
    omega

/-- Claim C7 amended: neither the TopKTiledSoftmax constructor nor forward
performs a dedicated InvalidTileConfig precondition check.  For a
well-formed call (nonzero tile width, a nonempty batch, in-range labels),
forward fails - with the generic error torch.topk raises inside the tile
loop, modelled as none - exactly when k exceeds the width of some tile; in
particular k = 0 is not rejected and forward succeeds, producing a
label-only distribution. -/
theorem ttsk_fails_iff_tile_narrow
    (E : ℚ → ℚ) (w : List (List ℚ)) (k tf : ℕ) (input : List (List ℚ)) (target : List ℕ)
    (hs : w.length / tf ≠ 0)
    (hi : input ≠ []) (hlen : target.length = input.length)
    (hval : ∀ c ∈ target, c < w.length) :
    ttskForward E w k tf input target = none
      ↔ ∃ t ∈ listSplit (w.length / tf) w, t.length < k := by
  obtain ⟨s', hs'⟩ := Nat.exists_eq_succ_of_ne_zero hs
  have hw : w ≠ [] := by
    intro hwe
    rw [hwe] at hs
    simp at hs
  constructor
  · intro hn
    by_contra hno
    push_neg at hno
    have hsome : (ttskForward E w k tf input target).isSome := by
      unfold ttskForward
      rw [if_neg hs]
      apply mapO_isSome
      intro p _
      rw [Option.isSome_map']
      rw [hs']
      exact ttskRowEntries_isSome k w s' p.1 p.2 hw
        (fun t ht => hno t (by rw [hs']; exact ht))
    rw [hn] at hsome
    simp at hsome
  · intro hex
    unfold ttskForward
    rw [if_neg hs]
    cases input with
    | nil => exact absurd rfl hi
    | cons a input =>
      cases target with
      | nil => simp at hlen
      | cons t0 target =>
        rw [List.zip_cons_cons]
        apply mapO_cons_none
        show (ttskRowEntries k w (listSplit (w.length / tf) w) a t0).map _ = none
        have hcn := tileCandidatesRow_none k a (listSplit (w.length / tf) w) 0 hex
        unfold ttskRowEntries
        rw [hcn]
        rfl

/-- Witness for the amended tile-width failure characterization: k = 3
exceeds the width 2 of the single tile, so forward fails. -/
theorem ttsk_fails_iff_tile_narrow_witness :
    ttskForward oneFun [[2], [1]] 3 1 [[1]] [0] = none :=
  (ttsk_fails_iff_tile_narrow oneFun [[2], [1]] 3 1 [[1]] [0] (by decide) (by decide)
    (by decide) (by decide)).mpr (by with_unfolding_all decide)

/-- Counterexample to claim C9 as stated: TiledSoftmax.forward does not
return a single dense [tokens, vocabulary] tensor; with two tokens and
tile_factor 2 it returns a list of two one-token chunks instead of the one
dense matrix the baseline returns. -/
theorem tiled_not_single_tensor :
    tiledForward oneFun [[1]] 2 [[1], [2]] [0, 0]
      ≠ some [baselineForward oneFun [[1]] [[1], [2]] [0, 0]] := by
  with_unfolding_all decide

/-- Claim C9 amended: BaselineSoftmax and InplaceSoftmax return the single
dense [tokens, vocabulary] tensor whose rows are the softmax of the full
projection logits over all vocabulary entries, with no sparsification;
TiledSoftmax computes the same values but returns them as a list of token
chunks - deliberately not concatenated - whose concatenation equals that
dense tensor. -/
theorem baseline_kernels_dense_softmax
    (E : ℚ → ℚ) (w : List (List ℚ)) (tf : ℕ) (input : List (List ℚ)) (target : List ℕ)
    (chunks : List (List (List ℚ)))
    (ht : tiledForward E w tf input target = some chunks) :
    baselineForward E w input target = (input.map (projRow w)).map (denseSoftmaxRow E)
    ∧ inplaceForward E w input target = baselineForward E w input target
    ∧ chunks.flatten = baselineForward E w input target := by
  refine ⟨rfl, ?_, ?_⟩
  · unfold inplaceForward baselineForward
    apply List.map_congr_left
    intro row _
    show (row.map E).map _ = denseSoftmaxRow E row
    unfold denseSoftmaxRow
    rw [List.map_map]
    rfl
  · unfold tiledForward at ht
    by_cases hs : input.length / tf = 0
    · rw [if_pos hs] at ht
      exact absurd ht (by simp)
    · rw [if_neg hs] at ht
      obtain ⟨s', hs'⟩ := Nat.exists_eq_succ_of_ne_zero hs
      have hchunks := (Option.some.injEq _ _).mp ht
      rw [← hchunks]
      have hgen : ∀ L : List (List (List ℚ)),
          (L.map (fun chunk => (chunk.map (projRow w)).map (denseSoftmaxRow E))).flatten
            = ((L.flatten.map (projRow w)).map (denseSoftmaxRow E)) := by
        intro L
        rw [List.map_flatten, List.map_flatten, List.map_map]
        rfl
      rw [hgen, hs', listSplit_flatten]
      rfl

/-- Witness for the amended baseline-kernel contract: a one-token instance
whose tiled output is a single chunk matching the baseline matrix. -/
theorem baseline_kernels_dense_softmax_witness :
    tiledForward oneFun [[1]] 1 [[1]] [0] = some [[[1]]]
    ∧ [[[(1 : ℚ)]]].flatten = baselineForward oneFun [[1]] [[1]] [0] :=
  ⟨by with_unfolding_all decide,
    (baseline_kernels_dense_softmax oneFun [[1]] 1 [[1]] [0] [[[1]]]
      (by with_unfolding_all decide)).2.2⟩

theorem writeRegion_length {file : List α} {off : ℕ} {data : List α}
    (h : off + data.length ≤ file.length) : (writeRegion file off data).length = file.length := by
  unfold writeRegion
  rw [List.length_append, List.length_append, List.length_take, List.length_drop]
  omega

theorem writeRegion_length_ge {file : List α} {off : ℕ} {data : List α}
    (h : off ≤ file.length) : off + data.length ≤ (writeRegion file off data).length := by
  unfold writeRegion
  rw [List.length_append, List.length_append, List.length_take, List.length_drop]
  omega

theorem readRegion_writeRegion (file : List α) (off : ℕ) (data : List α)
    (h : off ≤ file.length) : readRegion (writeRegion file off data) off data.length = data := by
  unfold readRegion writeRegion
  have htake : (file.take off).length = off := by
    rw [List.length_take]
    omega
  rw [List.append_assoc, List.drop_left' htake, List.take_left' rfl]

/-- Claim C4 (spec-modelled: the ssd_offload module is not among the source
files): persisting a handle value to its bound file region with the cache
released and then reading the region back through to_tensor recovers a
value identical to the original tensor, whenever the offset does not point
past the end of the file (writing extends the file as needed). -/
theorem ssd_round_trip (t file : List ℚ) (off : ℕ)
    (h : off ≤ file.length) :
    (toFile (setFileParams (fromTensor t) off) true file).bind
      (fun s => toTensor s.1 s.2) = some t := by
  show toTensor (⟨t.length, none, some off, Location.onFile, false⟩ : SsdTensorHandle ℚ)
    (writeRegion file off t) = some t
  unfold toTensor
  show (if off + t.length ≤ (writeRegion file off t).length
    then some (readRegion (writeRegion file off t) off t.length) else none) = some t
  rw [if_pos (writeRegion_length_ge h)]
  rw [readRegion_writeRegion file off t h]

/-- Witness for the SSD round trip: the value [1, 2] written at offset 0 of
an initially empty file - as in the test, which binds a fresh temporary
file - is read back unchanged. -/
theorem ssd_round_trip_witness :
    (toFile (setFileParams (fromTensor [1, 2]) 0) true []).bind
      (fun s => toTensor s.1 s.2) = some [(1 : ℚ), 2] :=
  ssd_round_trip [1, 2] [] 0 (by decide)

/-- Claim C5 (spec-modelled: the ssd_offload module is not among the source
files): a handle wrapping a 16-element (4 by 4) tensor bound to a file
region, persisted with release, stepped once by SGD at learning rate 1/10
against the loss sum(handle + 1) - whose gradient is all ones - and read
back through the file equals exactly the value of the same SGD step applied
to a plain in-memory tensor holding the same initial values. -/
theorem ssd_sgd_step_matches_plain (t file : List ℚ) (off : ℕ)
    (hshape : t.length = 16)
    (hcap : off ≤ file.length) :
    ssdSgdFlow (1/10) t file off = some (sgdStep (1/10) t (gradSumAddOne t))
    ∧ sgdStep (1/10) t (gradSumAddOne t) = t.map (fun a => a - 1/10) := by
  have hf1ge : off + t.length ≤ (writeRegion file off t).length := writeRegion_length_ge hcap
  have hread : readRegion (writeRegion file off t) off t.length = t :=
    readRegion_writeRegion file off t hcap
  have hv2len : (sgdStep (1/10) t (gradSumAddOne t)).length = t.length := by
    unfold sgdStep gradSumAddOne
    rw [List.length_zipWith, List.length_map]
    exact Nat.min_self _
  constructor
  · have h2eq : materialize (⟨t.length, none, some off, Location.onFile, false⟩ :
        SsdTensorHandle ℚ) (writeRegion file off t)
        = some ⟨t.length, some t, some off, Location.inMemoryCache, false⟩ := by
      simp only [materialize]
      rw [if_pos hf1ge, hread]
    have h4eq : writeInPlace (⟨t.length, some t, some off, Location.inMemoryCache, false⟩ :
        SsdTensorHandle ℚ) (sgdStep (1/10) t (gradSumAddOne t))
        = some ⟨t.length, some (sgdStep (1/10) t (gradSumAddOne t)), some off,
            Location.inMemoryCache, true⟩ := by
      simp only [writeInPlace]
      rw [if_pos hv2len]
    have hf2ge : off + t.length ≤ (writeRegion (writeRegion file off t) off
        (sgdStep (1/10) t (gradSumAddOne t))).length := by
      have := @writeRegion_length_ge ℚ (writeRegion file off t) off
        (sgdStep (1/10) t (gradSumAddOne t)) (by omega)
      omega
    have h6eq : toTensor (pointToFile (⟨t.length, some (sgdStep (1/10) t (gradSumAddOne t)),
        some off, Location.inMemoryCache, false⟩ : SsdTensorHandle ℚ) off)
        (writeRegion (writeRegion file off t) off (sgdStep (1/10) t (gradSumAddOne t)))
        = some (sgdStep (1/10) t (gradSumAddOne t)) := by
      simp only [pointToFile, toTensor]
      rw [if_pos hf2ge, ← hv2len]
      exact congrArg some (readRegion_writeRegion (writeRegion file off t) off _ (by omega))
    show (toFile (setFileParams (fromTensor t) off) true file).bind (fun s1 =>
      (materialize s1.1 s1.2).bind (fun h2 =>
        (toTensor h2 s1.2).bind (fun v =>
          (writeInPlace h2 (sgdStep (1/10) v (gradSumAddOne v))).bind (fun h3 =>
            (toFile h3 false s1.2).bind (fun s2 =>
              toTensor (pointToFile s2.1 off) s2.2))))) = _
    show (materialize (⟨t.length, none, some off, Location.onFile, false⟩ :
        SsdTensorHandle ℚ) (writeRegion file off t)).bind (fun h2 =>
          (toTensor h2 (writeRegion file off t)).bind (fun v =>
            (writeInPlace h2 (sgdStep (1/10) v (gradSumAddOne v))).bind (fun h3 =>
              (toFile h3 false (writeRegion file off t)).bind (fun s2 =>
                toTensor (pointToFile s2.1 off) s2.2)))) = _
    rw [h2eq, Option.some_bind]
    show (writeInPlace (⟨t.length, some t, some off, Location.inMemoryCache, false⟩ :
        SsdTensorHandle ℚ) (sgdStep (1/10) t (gradSumAddOne t))).bind (fun h3 =>
          (toFile h3 false (writeRegion file off t)).bind (fun s2 =>
            toTensor (pointToFile s2.1 off) s2.2)) = _
    rw [h4eq, Option.some_bind]
    show toTensor (pointToFile (⟨t.length, some (sgdStep (1/10) t (gradSumAddOne t)),
        some off, Location.inMemoryCache, false⟩ : SsdTensorHandle ℚ) off)
        (writeRegion (writeRegion file off t) off (sgdStep (1/10) t (gradSumAddOne t))) = _
    exact h6eq
  · unfold sgdStep gradSumAddOne
    rw [List.zipWith_map_right, List.zipWith_same]
    apply List.map_congr_left
    intro a _
    rw [mul_one]

/-- Witness for the SSD optimizer-step equivalence: a concrete 16-element
zero tensor at offset 0 of an initially empty file - as in the test, which
binds a fresh temporary file - steps to the all -1/10 tensor both through
the file-backed flow and in memory. -/
theorem ssd_sgd_step_matches_plain_witness :
    ssdSgdFlow (1/10) (List.replicate 16 0) [] 0
      = some (sgdStep (1/10) (List.replicate 16 0) (gradSumAddOne (List.replicate 16 0))) :=
  (ssd_sgd_step_matches_plain (List.replicate 16 0) [] 0 (by decide) (by decide)).1
